import Mathlib

/-!
Verification of the Muse headless EEG acquisition service
(`scripts/muse_headless.py`), shallowly embedded in Lean 4.

Modelling conventions: Python float arithmetic on the exactly
representable constants involved is modelled over `ℚ` (and over `ℝ` for
the spectral pipeline); payload bytes (`bytes(data)`) are `Fin 256`;
fallible paths are explicit in the result types; every embedded function
is total, which models the absence of uncaught exceptions.
-/

namespace MuseHeadless

/-- A byte of a BLE notification payload, as produced by `bytes(data)`. -/
abbrev Byte := Fin 256

/-- Constant `SFREQ = 256`, the Muse sampling rate in Hz. -/
def SFREQ : ℕ := 256

/-- Constant `WINDOW_SIZE = 2`, seconds of signal used for the FFT. -/
def WINDOW_SIZE : ℕ := 2

/-- Constant `NUM_CHANNELS = 4`. -/
def NUM_CHANNELS : ℕ := 4

/-- The five frequency bands `BANDS`, each with its
inclusive-exclusive range in Hz, in source order. -/
def BANDS : List (String × ℚ × ℚ) :=
  [("Theta", 4, 8), ("Alpha", 8, 12), ("Low beta", 12, 16),
   ("High beta", 16, 25), ("Gamma", 25, 45)]

/-- Byte access `packet[k]` of the Python code. All in-range reads are
guarded by the decoder's length check, so the default is never the value
actually used. -/
def byteAt (packet : List Byte) (k : ℕ) : ℕ := (packet.getD k 0).val

/-- The raw 12-bit value read for sample index `i` inside
`decode_eeg_packet`: byte offset `2 + (i * 3) // 2`; for even `i` the
value is `(packet[off] << 4) | (packet[off+1] >> 4)`, for odd `i` it is
`((packet[off] & 0x0F) << 8) | packet[off+1]`. -/
def rawSample (packet : List Byte) (i : ℕ) : ℕ :=
  if i % 2 = 0 then
    (byteAt packet (2 + (i * 3) / 2)) <<< 4 ||| (byteAt packet (2 + (i * 3) / 2 + 1)) >>> 4
  else
    ((byteAt packet (2 + (i * 3) / 2)) &&& 0x0F) <<< 8 ||| byteAt packet (2 + (i * 3) / 2 + 1)

/-- Conversion of a raw unsigned 12-bit value to microvolts, as in the
source: `val = (val - 2048) * 1.64 / 2048 * 1000000 / 256`. -/
def calibrate (v : ℕ) : ℚ := ((v : ℚ) - 2048) * 1.64 / 2048 * 1000000 / 256

/-- The sample loop of `decode_eeg_packet`: `i` is the current sample
index, `fuel` the number of remaining iterations of `range(12)`; the
loop breaks (returning the samples decoded so far) as soon as
`byte_offset + 1 >= len(packet)`. -/
def decodeLoop (packet : List Byte) : ℕ → ℕ → List ℚ
  | _, 0 => []
  | i, fuel + 1 =>
    if 2 + (i * 3) / 2 + 1 < packet.length then
      calibrate (rawSample packet i) :: decodeLoop packet (i + 1) fuel
    else []

/-- Function `decode_eeg_packet`: skip the 2-byte header and decode up to 12
packed 12-bit samples, converting each to microvolts. -/
def decode_eeg_packet (packet : List Byte) : List ℚ :=
  decodeLoop packet 0 12

/-- Capacity `buffer_size = WINDOW_SIZE * SFREQ`, the fixed size (512) of
each channel buffer. -/
def buffer_size : ℕ := WINDOW_SIZE * SFREQ

/-- Model of `deque(maxlen=maxlen).append(x)`: append `x`, evicting the oldest
(leftmost) element when the deque is full. -/
def dequePush (maxlen : ℕ) (buf : List ℚ) (x : ℚ) : List ℚ :=
  if buf.length < maxlen then buf ++ [x] else buf.drop 1 ++ [x]

/-- Pushing a list of samples one by one, as the
`for sample in samples: self.buffers[channel_idx].append(sample)` loop
of `_eeg_callback` does. -/
def dequePushAll (maxlen : ℕ) (buf : List ℚ) : List ℚ → List ℚ
  | [] => buf
  | x :: xs => dequePushAll maxlen (dequePush maxlen buf x) xs

/-- A freshly constructed channel buffer: the service pre-fills each
buffer with `buffer_size` zero samples in `__init__`. -/
def initBuffer : List ℚ := List.replicate buffer_size 0

/-- The EEG notification callback created by `_eeg_callback` for
channel `ch`: decode the payload and append every decoded sample to
that channel's buffer; the other channels are untouched. The function
is total: the surrounding `try` never sees an exception from the
decoder itself. -/
def eeg_callback (bufs : Fin 4 → List ℚ) (ch : Fin 4) (data : List Byte) :
    Fin 4 → List ℚ :=
  fun c =>
    if c = ch then dequePushAll buffer_size (bufs c) (decode_eeg_packet data)
    else bufs c

/-- Outcome of one disconnected iteration of `connection_loop`:
discovery found no device, a found device failed to connect, or the
connection succeeded. -/
inductive CycleOutcome
  | scanFail
  | connectFail
  | success
deriving DecidableEq

/-- Initial value of `self.reconnect_delay`. -/
def init_reconnect_delay : ℚ := 5

/-- Cap `self.max_reconnect_delay`. -/
def max_reconnect_delay : ℚ := 30

/-- Value of `self.reconnect_delay` after one disconnected iteration of
`connection_loop`: a failed connect multiplies it by 1.5 capped at
`max_reconnect_delay`; a failed scan leaves it unchanged; a successful
connect resets it to 5 inside `connect_muse`. -/
def reconnectStep (d : ℚ) : CycleOutcome → ℚ
  | .scanFail => d
  | .connectFail => min (d * 1.5) max_reconnect_delay
  | .success => 5

/-- The successive `asyncio.sleep(self.reconnect_delay)` waits
performed by `connection_loop` over a sequence of cycle outcomes
starting from delay `d`; both failure branches wait the current delay,
a successful cycle performs no backoff wait. -/
def connectionWaits (d : ℚ) : List CycleOutcome → List ℚ
  | [] => []
  | o :: rest =>
    match o with
    | .success => connectionWaits (reconnectStep d .success) rest
    | .scanFail => d :: connectionWaits (reconnectStep d .scanFail) rest
    | .connectFail => d :: connectionWaits (reconnectStep d .connectFail) rest

/-- One fan-out pass of `broadcast`: attempt delivery of the serialized
message `msg` to every client in order; `fails c = true` models
`client.send` raising for client `c`. Returns the deliveries that
succeeded (client paired with the message it received) and the
`disconnected` collection. -/
def broadcastPass (msg : String) (fails : ℕ → Bool) :
    List ℕ → List (ℕ × String) × List ℕ
  | [] => ([], [])
  | c :: rest =>
    let p := broadcastPass msg fails rest
    if fails c then (p.1, c :: p.2) else ((c, msg) :: p.1, p.2)

/-- Function `broadcast`: return immediately when there are no clients;
otherwise serialize the message once (`msg` stands for the result of
`json.dumps`), attempt delivery to every current client, and afterwards
remove exactly the failed ones (`self.clients -= disconnected`).
Returns the successful deliveries and the remaining client set. -/
def broadcast (msg : String) (clients : List ℕ) (fails : ℕ → Bool) :
    List (ℕ × String) × List ℕ :=
  if clients.isEmpty then ([], clients)
  else
    let p := broadcastPass msg fails clients
    (p.1, clients.filter (fun c => !(p.2.contains c)))

/-- A BLE operation attempted during the `connect_muse` handshake. -/
inductive HsEv
  | subscribe (ch : Fin 4)
  | write (cmd : String)
  | settle (secs : ℚ)
deriving DecidableEq

/-- The four control commands written to `CONTROL_CHAR`, in source
order: version query, preset selection, resume, start-streaming. -/
def museCommands : List String := ["v1\n", "p20\n", "s\n", "d\n"]

/-- The control-command block of `connect_muse`, one `try` for all four
writes: each `write_gatt_char` is attempted in order; `writeFails k`
models the `k`-th command write raising, which skips the rest of the
block (the exception is caught by the surrounding `except`). Each of
the first three successful writes is followed by `asyncio.sleep(0.5)`;
the final `d` write is not. -/
def commandBlock (writeFails : Fin 4 → Bool) : List HsEv :=
  HsEv.write "v1\n" ::
    (if writeFails 0 then [] else
      HsEv.settle (1/2) :: HsEv.write "p20\n" ::
        (if writeFails 1 then [] else
          HsEv.settle (1/2) :: HsEv.write "s\n" ::
            (if writeFails 2 then [] else
              HsEv.settle (1/2) :: [HsEv.write "d\n"])))

/-- The sequence of BLE operations attempted by `connect_muse` once the
transport connection is up, with the returned success flag: all four
EEG characteristics are subscribed first, each inside its own `try`, so
`subFails` changes nothing about what is attempted; then the command
block runs; command failures are caught, so the function still returns
`True`. -/
def connect_muse_handshake (subFails : Fin 4 → Bool) (writeFails : Fin 4 → Bool) :
    List HsEv × Bool :=
  have _hsub := subFails
  ((List.finRange 4).map HsEv.subscribe ++ commandBlock writeFails, true)

/-- A decoded JSON value, as produced by `json.loads`. -/
inductive Json
  | null
  | bool (b : Bool)
  | num (q : ℚ)
  | str (s : String)
  | arr (elems : List Json)
  | obj (fields : List (String × Json))

/-- Model of `dict.get(key)` on a decoded JSON object: the value of the last
binding of `key` (later duplicates win in `json.loads`). -/
def jsonGet (fields : List (String × Json)) (key : String) : Option Json :=
  ((fields.filter (fun f => f.1 == key)).map (fun f => f.2)).getLast?

/-- Result of processing one inbound client message in `handle_client`:
the reply sent back to the sender, whether a status re-broadcast to all
clients was triggered, whether the message loop continues, and whether
the sender is still in `self.clients` once the handler settles. -/
structure ClientStep where
  reply : Option Json
  statusRebroadcast : Bool
  loopContinues : Bool
  senderRemains : Bool

/-- One iteration of `handle_client`'s message loop. `none` models a
payload `json.loads` rejects (`JSONDecodeError`, caught by the inner
`except` and ignored). A decoded object is answered according to its
`type` field. Any other decoded value makes `cmd.get` raise
`AttributeError`, which the inner `except json.JSONDecodeError` does
not catch: the handler's outer `except` absorbs it, the loop ends, and
the `finally` block discards the sender from `self.clients`. -/
def handle_client_step (msg : Option Json) : ClientStep :=
  match msg with
  | none => ⟨none, false, true, true⟩
  | some (Json.obj fields) =>
    match jsonGet fields "type" with
    | some (Json.str t) =>
      if t == "ping" then
        ⟨some (Json.obj [("type", Json.str "pong")]), false, true, true⟩
      else if t == "status" then ⟨none, true, true, true⟩
      else ⟨none, false, true, true⟩
    | _ => ⟨none, false, true, true⟩
  | some _ => ⟨none, false, false, false⟩

/-- Whether an inbound message is a well-formed request: a decoded JSON
object whose `type` field is the string `ping` or `status`. -/
def isWellFormedRequest (msg : Option Json) : Bool :=
  match msg with
  | some (Json.obj fields) =>
    match jsonGet fields "type" with
    | some (Json.str t) => t == "ping" || t == "status"
    | _ => false
  | _ => false

/-- Whether `json.loads` succeeded but returned a non-object value. -/
def isNonObjectJson (msg : Option Json) : Bool :=
  match msg with
  | some (Json.obj _) => false
  | some _ => true
  | none => false

/-- The Hamming window `np.hamming(n)` at index `j`. -/
noncomputable def hammingWindow (n j : ℕ) : ℝ :=
  0.54 - 0.46 * Real.cos (2 * Real.pi * j / ((n : ℝ) - 1))

/-- One coefficient of `np.fft.fft` of the first `n` entries of `x`. -/
noncomputable def fftCoeff (n : ℕ) (x : ℕ → ℝ) (k : ℕ) : ℂ :=
  ∑ j ∈ Finset.range n, (x j : ℂ) *
    Complex.exp (-2 * Real.pi * Complex.I * (j : ℂ) * (k : ℂ) / (n : ℂ))

/-- The signal preprocessing in `calculate_band_powers`: subtract the
mean, then multiply by the Hamming window. -/
noncomputable def preprocess (n : ℕ) (x : ℕ → ℝ) : ℕ → ℝ :=
  fun j => (x j - (∑ i ∈ Finset.range n, x i) / n) * hammingWindow n j

/-- The normalized one-sided magnitude spectrum
`psd = 2 * np.abs(fft)[:n//2] / n` at bin `k`. -/
noncomputable def psdBin (n : ℕ) (x : ℕ → ℝ) (k : ℕ) : ℝ :=
  2 * Complex.abs (fftCoeff n (preprocess n x) k) / n

/-- Value `np.fft.fftfreq(n, 1/SFREQ)[k]`, exactly `k * SFREQ / n`; the
values involved are all exactly representable, so the rational value
models the float computation faithfully. -/
def fftfreq (n k : ℕ) : ℚ := (k : ℚ) * SFREQ / n

/-- The bins of the one-sided spectrum whose frequency `f` satisfies
`low ≤ f < high`. -/
def bandBins (n : ℕ) (low high : ℚ) : Finset ℕ :=
  (Finset.range (n / 2)).filter (fun k => low ≤ fftfreq n k ∧ fftfreq n k < high)

/-- Per-channel band power: the mean of the normalized magnitude
spectrum over the band's bins. -/
noncomputable def channelBandPower (n : ℕ) (x : ℕ → ℝ) (low high : ℚ) : ℝ :=
  (∑ k ∈ bandBins n low high, psdBin n x k) / (bandBins n low high).card

/-- Peak absolute value `np.abs(data).max()` of a channel snapshot (a
snapshot always holds exactly `buffer_size` samples). -/
noncomputable def peakAbs (x : ℕ → ℝ) : ℝ :=
  (Finset.range buffer_size).sup'
    ⟨0, by simp [buffer_size, WINDOW_SIZE, SFREQ]⟩ (fun j => |x j|)

/-- Function `calculate_band_powers`, translated from the source: for each band
walk the four channels in order; skip a channel whose snapshot peak is
below 0.1; otherwise compute its mean band magnitude, appended only
when the band selects at least one frequency bin; a band whose
channel-power list stays empty is absent from the result. -/
noncomputable def calculate_band_powers (bufs : Fin 4 → ℕ → ℝ) :
    List (String × ℝ) :=
  BANDS.filterMap (fun band =>
    let chPowers := (List.finRange 4).filterMap (fun ch =>
      if peakAbs (bufs ch) < 0.1 then none
      else if 0 < (bandBins buffer_size band.2.1 band.2.2).card then
        some (channelBandPower buffer_size (bufs ch) band.2.1 band.2.2)
      else none)
    if chPowers.isEmpty then none
    else some (band.1, chPowers.sum / chPowers.length))

/-- Reference definition following the specification's words, for
comparison with `calculate_band_powers`: a channel contributes to a
band exactly when its snapshot peak is at least the 0.1 noise floor;
its per-band power is the mean magnitude over the band's bins; a band's
reported power is the mean over contributing channels; a band with no
contributing channel is omitted from the result. -/
noncomputable def bandPowersSpec (bufs : Fin 4 → ℕ → ℝ) :
    List (String × ℝ) :=
  BANDS.filterMap (fun band =>
    let chPowers := (List.finRange 4).filterMap (fun ch =>
      if 0.1 ≤ peakAbs (bufs ch) then
        some (channelBandPower buffer_size (bufs ch) band.2.1 band.2.2)
      else none)
    if chPowers.isEmpty then none
    else some (band.1, chPowers.sum / chPowers.length))

theorem decodeLoop_length_le (packet : List Byte) :
    ∀ fuel i, (decodeLoop packet i fuel).length ≤ fuel := by
  intro fuel
  induction fuel with
  | zero => intro i; simp [decodeLoop]
  | succ n ih =>
    intro i
    by_cases h : 2 + (i * 3) / 2 + 1 < packet.length
    · simpa [decodeLoop, h] using ih (i + 1)
    · simp [decodeLoop, h]

theorem decodeLoop_cons (packet : List Byte) (i n : ℕ)
    (hg : 2 + (i * 3) / 2 + 1 < packet.length) :
    decodeLoop packet i (n + 1) =
      calibrate (rawSample packet i) :: decodeLoop packet (i + 1) n := by
  simp [decodeLoop, hg]

theorem decodeLoop_nil (packet : List Byte) (i n : ℕ)
    (hg : ¬ 2 + (i * 3) / 2 + 1 < packet.length) :
    decodeLoop packet i (n + 1) = [] := by
  simp [decodeLoop, hg]

theorem decodeLoop_get (packet : List Byte) :
    ∀ fuel i j, j < (decodeLoop packet i fuel).length →
      (decodeLoop packet i fuel)[j]? = some (calibrate (rawSample packet (i + j))) ∧
      2 + ((i + j) * 3) / 2 + 1 < packet.length := by
  intro fuel
  induction fuel with
  | zero => intro i j h; simp [decodeLoop] at h
  | succ n ih =>
    intro i j h
    by_cases hg : 2 + (i * 3) / 2 + 1 < packet.length
    · rw [decodeLoop_cons packet i n hg] at h ⊢
      cases j with
      | zero => simpa using hg
      | succ k =>
        have hk : k < (decodeLoop packet (i + 1) n).length := by
          simpa using h
        have hik : i + 1 + k = i + (k + 1) := by omega
        have := ih (i + 1) k hk
        rw [hik] at this
        simpa using this
    · rw [decodeLoop_nil packet i n hg] at h
      simp at h

theorem decodeLoop_stop (packet : List Byte) :
    ∀ fuel i, (decodeLoop packet i fuel).length < fuel →
      ¬ (2 + ((i + (decodeLoop packet i fuel).length) * 3) / 2 + 1 < packet.length) := by
  intro fuel
  induction fuel with
  | zero => intro i h; omega
  | succ n ih =>
    intro i h
    by_cases hg : 2 + (i * 3) / 2 + 1 < packet.length
    · rw [decodeLoop_cons packet i n hg] at h ⊢
      have hlen : (decodeLoop packet (i + 1) n).length < n := by
        simpa using h
      have := ih (i + 1) hlen
      have harith : i + 1 + (decodeLoop packet (i + 1) n).length =
          i + (calibrate (rawSample packet i) :: decodeLoop packet (i + 1) n).length := by
        simp; omega
      rwa [harith] at this
    · rw [decodeLoop_nil packet i n hg]
      simpa using hg

theorem decodeLoop_mem (packet : List Byte) :
    ∀ fuel i x, x ∈ decodeLoop packet i fuel →
      ∃ j, x = calibrate (rawSample packet j) := by
  intro fuel
  induction fuel with
  | zero => intro i x hx; simp [decodeLoop] at hx
  | succ n ih =>
    intro i x hx
    by_cases hg : 2 + (i * 3) / 2 + 1 < packet.length
    · simp only [decodeLoop, if_pos hg] at hx
      rcases List.mem_cons.mp hx with h | h
      · exact ⟨i, h⟩
      · exact ih (i + 1) x h
    · simp only [decodeLoop, if_neg hg] at hx
      simp at hx

theorem byteAt_lt (packet : List Byte) (k : ℕ) : byteAt packet k < 256 :=
  (packet.getD k 0).isLt

theorem byteAt_cons_cons (b0 b1 : Byte) (l : List Byte) (k : ℕ) :
    byteAt (b0 :: b1 :: l) (2 + k) = byteAt l k := by
  have h : 2 + k = (k + 1) + 1 := by omega
  rw [h]
  simp [byteAt, List.getD_cons_succ]

theorem byteAt_replicate_zero (n k : ℕ) :
    byteAt (List.replicate n (0 : Byte)) k = 0 := by
  rw [byteAt, List.getD_eq_getElem?_getD, List.getElem?_replicate]
  split <;> simp

theorem rawSample_lt (packet : List Byte) (i : ℕ) :
    rawSample packet i < 4096 := by
  have h4096 : (4096 : ℕ) = 2 ^ 12 := by norm_num
  have hb1 := byteAt_lt packet (2 + (i * 3) / 2)
  have hb2 := byteAt_lt packet (2 + (i * 3) / 2 + 1)
  rw [rawSample]
  split
  · rw [h4096]
    refine Nat.or_lt_two_pow ?_ ?_
    · rw [Nat.shiftLeft_eq]; omega
    · rw [Nat.shiftRight_eq_div_pow]; omega
  · rw [h4096]
    refine Nat.or_lt_two_pow ?_ ?_
    · rw [Nat.shiftLeft_eq]
      have := Nat.and_le_right (n := byteAt packet (2 + (i * 3) / 2)) (m := 0x0F)
      omega
    · omega

theorem calibrate_mono {v w : ℕ} (h : v ≤ w) : calibrate v ≤ calibrate w := by
  rw [calibrate, calibrate]
  have hvw : (v : ℚ) ≤ (w : ℚ) := by exact_mod_cast h
  gcongr

theorem rawSample_zero_packet (b0 b1 : Byte) (i : ℕ) :
    rawSample (b0 :: b1 :: List.replicate 18 0) i = 0 := by
  have h1 : byteAt (b0 :: b1 :: List.replicate 18 (0 : Byte)) (2 + (i * 3) / 2) = 0 := by
    rw [byteAt_cons_cons, byteAt_replicate_zero]
  have h2 : byteAt (b0 :: b1 :: List.replicate 18 (0 : Byte)) (2 + (i * 3) / 2 + 1) = 0 := by
    have h : 2 + (i * 3) / 2 + 1 = 2 + ((i * 3) / 2 + 1) := by omega
    rw [h, byteAt_cons_cons, byteAt_replicate_zero]
  rw [rawSample]
  split <;> rw [h1, h2] <;> decide

theorem decode_length_of_full (packet : List Byte) (h : 20 ≤ packet.length) :
    (decode_eeg_packet packet).length = 12 := by
  have hle := decodeLoop_length_le packet 12 0
  by_contra hne
  have hlt : (decodeLoop packet 0 12).length < 12 := by
    rw [decode_eeg_packet] at hne
    omega
  have hstop := decodeLoop_stop packet 12 0 hlt
  rw [decode_eeg_packet] at hne
  omega

theorem decode_allzero (b0 b1 : Byte) :
    decode_eeg_packet (b0 :: b1 :: List.replicate 18 0) =
      List.replicate 12 (calibrate 0) := by
  have hlen20 : (b0 :: b1 :: List.replicate 18 (0 : Byte)).length = 20 := by simp
  have hfull : (decode_eeg_packet (b0 :: b1 :: List.replicate 18 0)).length = 12 :=
    decode_length_of_full _ (by omega)
  apply List.ext_getElem?
  intro i
  by_cases hi : i < 12
  · have hlt : i < (decodeLoop (b0 :: b1 :: List.replicate 18 0) 0 12).length := by
      rw [decode_eeg_packet] at hfull
      omega
    have hget := (decodeLoop_get (b0 :: b1 :: List.replicate 18 0) 12 0 i hlt).1
    rw [rawSample_zero_packet b0 b1 (0 + i)] at hget
    rw [decode_eeg_packet, List.getElem?_replicate, if_pos hi]
    exact hget
  · rw [List.getElem?_eq_none, List.getElem?_eq_none]
    · simp; omega
    · omega

/-- C1: every packet of at least 20 bytes (2-byte header plus 18 sample
bytes) decodes to exactly 12 calibrated samples; the `i`-th equals
`calibrate (rawSample packet i)`, the raw 12-bit value at byte offset
`2 + (i*3)/2` read even/odd exactly as in the source and converted by
`(v - 2048) * 1.64 / 2048 * 1000000 / 256`; and a packet whose 18
sample bytes are all zero yields 12 samples each equal to
`(0 - 2048) * 1.64 / 2048 * 1000000 / 256`. -/
theorem C1_decode_full_packet :
    (∀ packet : List Byte, 20 ≤ packet.length →
      (decode_eeg_packet packet).length = 12 ∧
      ∀ i, i < 12 →
        (decode_eeg_packet packet)[i]? = some (calibrate (rawSample packet i))) ∧
    ∀ b0 b1 : Byte,
      decode_eeg_packet (b0 :: b1 :: List.replicate 18 0) =
        List.replicate 12 (((0 : ℚ) - 2048) * 1.64 / 2048 * 1000000 / 256) := by
  have main : ∀ packet : List Byte, 20 ≤ packet.length →
      (decode_eeg_packet packet).length = 12 ∧
      ∀ i, i < 12 →
        (decode_eeg_packet packet)[i]? = some (calibrate (rawSample packet i)) := by
    intro packet h
    refine ⟨decode_length_of_full packet h, ?_⟩
    intro i hi
    have hlen : i < (decodeLoop packet 0 12).length := by
      have := decode_length_of_full packet h
      rw [decode_eeg_packet] at this
      omega
    have := (decodeLoop_get packet 12 0 i hlen).1
    rw [decode_eeg_packet]
    simpa using this
  refine ⟨main, ?_⟩
  intro b0 b1
  rw [decode_allzero b0 b1]
  have : calibrate 0 = ((0 : ℚ) - 2048) * 1.64 / 2048 * 1000000 / 256 := by
    simp [calibrate]
  rw [this]

/-- Witness for C1 at the concrete all-zero 20-byte packet. -/
theorem C1_witness :
    (decode_eeg_packet (List.replicate 20 0)).length = 12 ∧
    (decode_eeg_packet (List.replicate 20 0))[0]? =
      some (calibrate (rawSample (List.replicate 20 0) 0)) := by
  refine ⟨(C1_decode_full_packet.1 (List.replicate 20 0) (by decide)).1, ?_⟩
  exact (C1_decode_full_packet.1 (List.replicate 20 0) (by decide)).2 0 (by decide)

theorem decode_short (packet : List Byte) (hshort : packet.length < 20) :
    (decode_eeg_packet packet).length < 12 := by
  have hle := decodeLoop_length_le packet 12 0
  by_contra hge
  have h11 : 11 < (decodeLoop packet 0 12).length := by
    rw [decode_eeg_packet] at hge
    omega
  have := (decodeLoop_get packet 12 0 11 h11).2
  omega

/-- C4: the decoder is a total function on arbitrary byte sequences
(modelling that no exception is raised); every decoded position had its
required byte offset inside the buffer and carries the calibrated
sample value; decoding stops exactly at the first sample whose required
offset does not fit; and any packet shorter than 20 bytes yields fewer
than 12 samples. -/
theorem C4_decode_truncated :
    ∀ packet : List Byte,
      (∀ i, i < (decode_eeg_packet packet).length →
        (decode_eeg_packet packet)[i]? = some (calibrate (rawSample packet i)) ∧
        2 + (i * 3) / 2 + 1 < packet.length) ∧
      ((decode_eeg_packet packet).length < 12 →
        ¬ (2 + ((decode_eeg_packet packet).length * 3) / 2 + 1 < packet.length)) ∧
      (packet.length < 20 → (decode_eeg_packet packet).length < 12) := by
  intro packet
  refine ⟨?_, ?_, ?_⟩
  · intro i hi
    have hlen : i < (decodeLoop packet 0 12).length := by
      rw [decode_eeg_packet] at hi
      exact hi
    have := decodeLoop_get packet 12 0 i hlen
    rw [decode_eeg_packet]
    constructor
    · simpa using this.1
    · simpa using this.2
  · intro hlt
    have := decodeLoop_stop packet 12 0 (by rwa [decode_eeg_packet] at hlt)
    rw [decode_eeg_packet]
    simpa using this
  · exact decode_short packet

/-- Witness for C4 at a concrete 5-byte truncated packet. -/
theorem C4_witness :
    (decode_eeg_packet (List.replicate 5 0)).length < 12 ∧
    (decode_eeg_packet (List.replicate 5 0))[0]? =
      some (calibrate (rawSample (List.replicate 5 0) 0)) := by
  refine ⟨(C4_decode_truncated (List.replicate 5 0)).2.2 (by decide), ?_⟩
  exact ((C4_decode_truncated (List.replicate 5 0)).1 0 (by decide)).1

/-- C10: the decoder returns at most 12 samples, and every returned
sample lies between the calibrated values of the extreme 12-bit raw
values 0 and 4095. -/
theorem C10_decode_bounds :
    ∀ packet : List Byte,
      (decode_eeg_packet packet).length ≤ 12 ∧
      ∀ x ∈ decode_eeg_packet packet,
        ((0 : ℚ) - 2048) * 1.64 / 2048 * 1000000 / 256 ≤ x ∧
        x ≤ ((4095 : ℚ) - 2048) * 1.64 / 2048 * 1000000 / 256 := by
  intro packet
  refine ⟨decodeLoop_length_le packet 12 0, ?_⟩
  intro x hx
  obtain ⟨j, hj⟩ := decodeLoop_mem packet 12 0 x hx
  subst hj
  have hlo : calibrate 0 ≤ calibrate (rawSample packet j) :=
    calibrate_mono (Nat.zero_le _)
  have hhi : calibrate (rawSample packet j) ≤ calibrate 4095 :=
    calibrate_mono (by have := rawSample_lt packet j; omega)
  have h0 : calibrate 0 = ((0 : ℚ) - 2048) * 1.64 / 2048 * 1000000 / 256 := by
    simp [calibrate]
  have h4095 : calibrate 4095 = ((4095 : ℚ) - 2048) * 1.64 / 2048 * 1000000 / 256 := by
    norm_num [calibrate]
  constructor
  · rw [← h0]; exact hlo
  · rw [← h4095]; exact hhi

/-- Witness for C10 at a concrete member of a concrete decode result. -/
theorem C10_witness :
    (decode_eeg_packet (List.replicate 20 0)).length ≤ 12 ∧
    (((0 : ℚ) - 2048) * 1.64 / 2048 * 1000000 / 256 ≤ calibrate 0 ∧
      calibrate 0 ≤ ((4095 : ℚ) - 2048) * 1.64 / 2048 * 1000000 / 256) := by
  refine ⟨(C10_decode_bounds (List.replicate 20 0)).1, ?_⟩
  have hmem : calibrate 0 ∈ decode_eeg_packet (List.replicate 20 0) := by
    have h : (List.replicate 20 (0 : Byte)) = 0 :: 0 :: List.replicate 18 0 := rfl
    rw [h, decode_allzero]
    exact List.mem_replicate.mpr ⟨by norm_num, rfl⟩
  exact (C10_decode_bounds (List.replicate 20 0)).2 (calibrate 0) hmem

theorem dequePushAll_eq (L : ℕ) (hL : 1 ≤ L) :
    ∀ (xs buf : List ℚ), buf.length = L →
      dequePushAll L buf xs = (buf ++ xs).drop xs.length := by
  intro xs
  induction xs with
  | nil => intro buf h; simp [dequePushAll]
  | cons x xs ih =>
    intro buf h
    match buf with
    | [] => simp at h; omega
    | b :: t =>
      have ht : t.length + 1 = L := by simpa using h
      have hpush : dequePush L (b :: t) x = t ++ [x] := by
        rw [dequePush, if_neg (by simp; omega)]
        simp
      have hlen : (t ++ [x]).length = L := by simp; omega
      calc dequePushAll L (b :: t) (x :: xs)
          = dequePushAll L (dequePush L (b :: t) x) xs := by rw [dequePushAll]
        _ = ((t ++ [x]) ++ xs).drop xs.length := by rw [hpush, ih (t ++ [x]) hlen]
        _ = ((b :: t) ++ x :: xs).drop (x :: xs).length := by
            simp [List.append_assoc]

/-- C5: a channel buffer is constructed pre-filled with
`buffer_size = WINDOW_SIZE * SFREQ = 512` zero samples; an append onto
a full buffer evicts the oldest element and appends the new one;
pushing any list of samples leaves the length at exactly `buffer_size`;
and pushing `N > buffer_size` samples leaves exactly the most recent
`buffer_size` samples in FIFO order. -/
theorem C5_buffer_invariant :
    (initBuffer.length = buffer_size ∧ ∀ y ∈ initBuffer, y = 0) ∧
    (∀ (buf : List ℚ) (x : ℚ), buf.length = buffer_size →
      dequePush buffer_size buf x = buf.drop 1 ++ [x]) ∧
    (∀ (buf : List ℚ) (xs : List ℚ), buf.length = buffer_size →
      (dequePushAll buffer_size buf xs).length = buffer_size) ∧
    (∀ (buf : List ℚ) (xs : List ℚ), buf.length = buffer_size →
      buffer_size < xs.length →
      dequePushAll buffer_size buf xs = xs.drop (xs.length - buffer_size)) := by
  have hcap : buffer_size = 512 := by norm_num [buffer_size, WINDOW_SIZE, SFREQ]
  refine ⟨⟨by simp [initBuffer], ?_⟩, ?_, ?_, ?_⟩
  · intro y hy
    exact (List.eq_of_mem_replicate hy)
  · intro buf x h
    rw [dequePush, if_neg (by omega)]
  · intro buf xs h
    rw [dequePushAll_eq buffer_size (by omega) xs buf h]
    simp
    omega
  · intro buf xs h hlong
    rw [dequePushAll_eq buffer_size (by omega) xs buf h]
    have hsplit : xs.length = buf.length + (xs.length - buffer_size) := by omega
    calc (buf ++ xs).drop xs.length
        = (buf ++ xs).drop (buf.length + (xs.length - buffer_size)) := by rw [← hsplit]
      _ = xs.drop (xs.length - buffer_size) := List.drop_append _

/-- Witness for C5: pushing 513 ones onto a freshly constructed buffer
leaves exactly the most recent 512 samples. -/
theorem C5_witness :
    dequePushAll buffer_size initBuffer (List.replicate 513 1) =
      (List.replicate 513 (1 : ℚ)).drop
        ((List.replicate 513 (1 : ℚ)).length - buffer_size) := by
  have hcap : buffer_size = 512 := by norm_num [buffer_size, WINDOW_SIZE, SFREQ]
  have h1 : initBuffer.length = buffer_size := by
    rw [initBuffer, List.length_replicate]
  have h2 : buffer_size < (List.replicate 513 (1 : ℚ)).length := by
    rw [List.length_replicate, hcap]
    norm_num
  exact (C5_buffer_invariant.2.2.2) initBuffer (List.replicate 513 1) h1 h2

theorem broadcastPass_spec (msg : String) (fails : ℕ → Bool) :
    ∀ clients : List ℕ,
      (broadcastPass msg fails clients).1 =
        (clients.filter (fun c => !(fails c))).map (fun c => (c, msg)) ∧
      (broadcastPass msg fails clients).2 = clients.filter fails := by
  intro clients
  induction clients with
  | nil => simp [broadcastPass]
  | cons c rest ih =>
    rw [broadcastPass]
    by_cases hc : fails c
    · simp [hc, ih.1, ih.2]
    · simp [hc, ih.1, ih.2]

/-- C6: `broadcast` serializes the message once and attempts delivery
to every current subscriber; a failing subscriber does not prevent
delivery to the others (exactly the non-failing subscribers receive the
serialized message); exactly the failed subscribers are removed after
the fan-out pass; and broadcasting to three subscribers of which one
fails leaves exactly the other two, both of which received the
message. -/
theorem C6_broadcast_fanout :
    (∀ (msg : String) (clients : List ℕ) (fails : ℕ → Bool),
      (broadcast msg clients fails).1 =
        (clients.filter (fun c => !(fails c))).map (fun c => (c, msg)) ∧
      (broadcast msg clients fails).2 = clients.filter (fun c => !(fails c))) ∧
    broadcast "status" [0, 1, 2] (fun c => c == 1) =
      ([(0, "status"), (2, "status")], [0, 2]) := by
  constructor
  · intro msg clients fails
    by_cases hemp : clients.isEmpty
    · have : clients = [] := List.isEmpty_iff.mp hemp
      subst this
      simp [broadcast]
    · simp only [broadcast, if_neg hemp]
      refine ⟨(broadcastPass_spec msg fails clients).1, ?_⟩
      rw [(broadcastPass_spec msg fails clients).2]
      apply List.filter_congr
      intro c hc
      by_cases hfc : fails c
      · simp [hfc, hc]
      · simp [hfc]
  · decide

theorem connectionWaits_cons (d : ℚ) (o : CycleOutcome) (rest : List CycleOutcome) :
    connectionWaits d (o :: rest) =
      (if o = CycleOutcome.success then ([] : List ℚ) else [d]) ++
        connectionWaits (reconnectStep d o) rest := by
  cases o <;> simp [connectionWaits]

/-- C3 counterexample: the claim says every failed cycle (including a
discovery that finds no device) multiplies the delay by 1.5 capped at
30; but after a scan-failure cycle starting at the initial delay 5 the
code leaves the delay at 5, not `min (5 * 1.5) 30 = 7.5`. -/
theorem C3_counterexample :
    reconnectStep init_reconnect_delay CycleOutcome.scanFail = 5 ∧
    reconnectStep init_reconnect_delay CycleOutcome.scanFail ≠
      min (init_reconnect_delay * 1.5) max_reconnect_delay := by
  constructor
  · rfl
  · show init_reconnect_delay ≠ min (init_reconnect_delay * 1.5) max_reconnect_delay
    rw [init_reconnect_delay, max_reconnect_delay]
    rw [min_eq_left (by norm_num)]
    norm_num

/-- C3 amended: only a found-device-fails-to-connect cycle waits the
current delay and then multiplies it by 1.5 capped at 30 s; a
discovery-finds-nothing cycle waits the current delay and leaves it
unchanged; the delay starts at 5 s, resets to 5 s immediately upon a
successful connection, and never exceeds 30 s; repeated connect
failures from the initial delay produce the wait sequence
5, 7.5, 11.25, 16.875, 25.3125, 30, 30. -/
theorem C3_backoff_amended :
    (connectionWaits init_reconnect_delay
        (List.replicate 7 CycleOutcome.connectFail) =
      [5, 7.5, 11.25, 16.875, 25.3125, 30, 30]) ∧
    (∀ d : ℚ, reconnectStep d CycleOutcome.connectFail =
      min (d * 1.5) max_reconnect_delay) ∧
    (∀ d : ℚ, reconnectStep d CycleOutcome.scanFail = d) ∧
    (∀ d : ℚ, reconnectStep d CycleOutcome.success = init_reconnect_delay) ∧
    (∀ d : ℚ, ∀ o : CycleOutcome, d ≤ max_reconnect_delay →
      reconnectStep d o ≤ max_reconnect_delay) := by
  refine ⟨?_, fun d => rfl, fun d => rfl, fun d => rfl, ?_⟩
  · show connectionWaits init_reconnect_delay
        [CycleOutcome.connectFail, CycleOutcome.connectFail, CycleOutcome.connectFail,
         CycleOutcome.connectFail, CycleOutcome.connectFail, CycleOutcome.connectFail,
         CycleOutcome.connectFail] = [5, 7.5, 11.25, 16.875, 25.3125, 30, 30]
    norm_num [connectionWaits, reconnectStep, init_reconnect_delay,
      max_reconnect_delay, min_def]
  · intro d o hd
    cases o with
    | scanFail => exact hd
    | connectFail => exact min_le_right _ _
    | success =>
      show init_reconnect_delay ≤ max_reconnect_delay
      rw [init_reconnect_delay, max_reconnect_delay]
      norm_num

/-- Witness for C3's amended cap property at a concrete delay. -/
theorem C3_witness :
    reconnectStep 5 CycleOutcome.connectFail ≤ max_reconnect_delay :=
  C3_backoff_amended.2.2.2.2 5 CycleOutcome.connectFail
    (by rw [max_reconnect_delay]; norm_num)

/-- C7 counterexample: with no write failures the attempted command
block is exactly seven events — three settle delays, none after the
final `d` write — contradicting a 0.5 s delay after each of the four
writes; and when the first command write fails, none of the remaining
commands is attempted, contradicting that a failure does not prevent
the remaining commands. -/
theorem C7_counterexample :
    commandBlock (fun _ => false) =
      [HsEv.write "v1\n", HsEv.settle (1/2), HsEv.write "p20\n", HsEv.settle (1/2),
       HsEv.write "s\n", HsEv.settle (1/2), HsEv.write "d\n"] ∧
    (commandBlock (fun _ => false)).getLast? = some (HsEv.write "d\n") ∧
    commandBlock (fun k => k == 0) = [HsEv.write "v1\n"] :=
  ⟨rfl, rfl, rfl⟩

/-- C7 amended: once the transport connection is open, the handshake
first subscribes to all four per-channel characteristics (individual
subscribe failures are logged and change nothing about the attempted
sequence), then writes the control commands in the exact order
`v1\n`, `p20\n`, `s\n`, `d\n`, with each of the first three successful
writes followed by a fixed 0.5 s settle delay and no delay after the
final write; a failure of an individual command write is not fatal (the
handshake still reports success) but prevents the remaining commands
from being issued. -/
theorem C7_handshake_amended :
    (∀ subFails writeFails : Fin 4 → Bool,
      connect_muse_handshake subFails writeFails =
        ([HsEv.subscribe 0, HsEv.subscribe 1, HsEv.subscribe 2, HsEv.subscribe 3] ++
          commandBlock writeFails, true)) ∧
    (∀ writeFails : Fin 4 → Bool, (∀ k, writeFails k = false) →
      commandBlock writeFails =
        [HsEv.write "v1\n", HsEv.settle (1/2), HsEv.write "p20\n", HsEv.settle (1/2),
         HsEv.write "s\n", HsEv.settle (1/2), HsEv.write "d\n"]) ∧
    (∀ writeFails : Fin 4 → Bool, ∀ k : Fin 4, writeFails k = true →
      (∀ j : Fin 4, j < k → writeFails j = false) →
      commandBlock writeFails =
        (List.take (2 * k.val)
          [HsEv.write "v1\n", HsEv.settle (1/2), HsEv.write "p20\n", HsEv.settle (1/2),
           HsEv.write "s\n", HsEv.settle (1/2), HsEv.write "d\n"]) ++
          [HsEv.write (museCommands.getD k.val "")]) := by
  refine ⟨fun subFails writeFails => rfl, ?_, ?_⟩
  · intro writeFails h
    simp [commandBlock, h 0, h 1, h 2]
  · intro writeFails k hk hprev
    fin_cases k
    · have hk0 : writeFails 0 = true := hk
      simp [commandBlock, hk0, museCommands]
    · have hk1 : writeFails 1 = true := hk
      have h0 : writeFails 0 = false := hprev 0 (by decide)
      simp [commandBlock, h0, hk1, museCommands]
    · have hk2 : writeFails 2 = true := hk
      have h0 : writeFails 0 = false := hprev 0 (by decide)
      have h1 : writeFails 1 = false := hprev 1 (by decide)
      simp [commandBlock, h0, h1, hk2, museCommands]
    · have hk3 : writeFails 3 = true := hk
      have h0 : writeFails 0 = false := hprev 0 (by decide)
      have h1 : writeFails 1 = false := hprev 1 (by decide)
      have h2 : writeFails 2 = false := hprev 2 (by decide)
      simp [commandBlock, h0, h1, h2, hk3, museCommands]

/-- Witness for C7's amended abort property: a write failure on the
second command leaves exactly the first write, its settle delay, and
the attempted second write. -/
theorem C7_witness :
    commandBlock (fun k => k == (1 : Fin 4)) =
      (List.take (2 * (1 : Fin 4).val)
        [HsEv.write "v1\n", HsEv.settle (1/2), HsEv.write "p20\n", HsEv.settle (1/2),
         HsEv.write "s\n", HsEv.settle (1/2), HsEv.write "d\n"]) ++
        [HsEv.write (museCommands.getD (1 : Fin 4).val "")] :=
  C7_handshake_amended.2.2 (fun k => k == 1) 1 (by decide) (by decide)

/-- C8 counterexample: a syntactically valid JSON message whose
top-level value is not an object (the number 5), which is not a
well-formed ping or status request, is not silently ignored: the
handler's message loop ends and the sender is removed from the
subscriber set. -/
theorem C8_counterexample :
    isWellFormedRequest (some (Json.num 5)) = false ∧
    (handle_client_step (some (Json.num 5))).senderRemains = false ∧
    (handle_client_step (some (Json.num 5))).loopContinues = false :=
  ⟨rfl, rfl, rfl⟩

/-- C8 amended: an inbound message that is not a well-formed ping or
status request is never answered and never triggers a status
rebroadcast, and no error propagates beyond the handler (the step
function is total); undecodable payloads and decoded JSON objects are
silently ignored with the sender remaining subscribed; but a decoded
non-object value ends the handler loop and removes the sender from the
subscriber set. -/
theorem C8_malformed_amended :
    ∀ msg : Option Json, isWellFormedRequest msg = false →
      (handle_client_step msg).reply = none ∧
      (handle_client_step msg).statusRebroadcast = false ∧
      (handle_client_step msg).senderRemains = !(isNonObjectJson msg) ∧
      (handle_client_step msg).loopContinues = !(isNonObjectJson msg) := by
  intro msg h
  cases msg with
  | none => exact ⟨rfl, rfl, rfl, rfl⟩
  | some j =>
    cases j with
    | null => exact ⟨rfl, rfl, rfl, rfl⟩
    | bool b => exact ⟨rfl, rfl, rfl, rfl⟩
    | num q => exact ⟨rfl, rfl, rfl, rfl⟩
    | str s => exact ⟨rfl, rfl, rfl, rfl⟩
    | arr es => exact ⟨rfl, rfl, rfl, rfl⟩
    | obj fields =>
      rw [isWellFormedRequest] at h
      rw [handle_client_step]
      rw [isNonObjectJson]
      cases hjg : jsonGet fields "type" with
      | none => exact ⟨rfl, rfl, rfl, rfl⟩
      | some v =>
        rw [hjg] at h
        cases v with
        | null => exact ⟨rfl, rfl, rfl, rfl⟩
        | bool b => exact ⟨rfl, rfl, rfl, rfl⟩
        | num q => exact ⟨rfl, rfl, rfl, rfl⟩
        | arr es => exact ⟨rfl, rfl, rfl, rfl⟩
        | obj fs => exact ⟨rfl, rfl, rfl, rfl⟩
        | str t =>
          have hb : (t == "ping" || t == "status") = false := h
          have hp : ¬ (t = "ping") := by
            intro ht
            rw [ht] at hb
            simp at hb
          have hs : ¬ (t = "status") := by
            intro ht
            rw [ht] at hb
            simp at hb
          simp [hp, hs]

/-- Witness for C8's amended property at a decoded empty-array
payload. -/
theorem C8_witness :
    (handle_client_step (some (Json.arr []))).reply = none ∧
    (handle_client_step (some (Json.arr []))).statusRebroadcast = false ∧
    (handle_client_step (some (Json.arr []))).senderRemains =
      !(isNonObjectJson (some (Json.arr []))) ∧
    (handle_client_step (some (Json.arr []))).loopContinues =
      !(isNonObjectJson (some (Json.arr []))) :=
  C8_malformed_amended (some (Json.arr [])) rfl

theorem rawSample_replicate_zero (n i : ℕ) :
    rawSample (List.replicate n (0 : Byte)) i = 0 := by
  rw [rawSample]
  split <;> rw [byteAt_replicate_zero, byteAt_replicate_zero] <;> decide

theorem decode_replicate5 :
    decode_eeg_packet (List.replicate 5 0) = [calibrate 0, calibrate 0] := by
  rw [decode_eeg_packet]
  rw [decodeLoop_cons _ 0 11 (by norm_num)]
  rw [decodeLoop_cons _ 1 10 (by norm_num)]
  rw [decodeLoop_nil _ 2 9 (by norm_num)]
  rw [rawSample_replicate_zero, rawSample_replicate_zero]

theorem calibrate_zero_ne : calibrate 0 ≠ 0 := by
  norm_num [calibrate]

/-- C9 counterexample: a truncated 5-byte notification decodes to two
partial samples and the callback pushes them into the channel's buffer:
the buffer does change, so the partial samples are not discarded. -/
theorem C9_counterexample :
    eeg_callback (fun _ => initBuffer) 0 (List.replicate 5 0) 0 ≠ initBuffer := by
  have hcap : buffer_size = 512 := by norm_num [buffer_size, WINDOW_SIZE, SFREQ]
  have hlen : initBuffer.length = buffer_size := by
    rw [initBuffer, List.length_replicate]
  have hstep : eeg_callback (fun _ => initBuffer) 0 (List.replicate 5 0) 0 =
      dequePushAll buffer_size initBuffer (decode_eeg_packet (List.replicate 5 0)) := by
    simp [eeg_callback]
  rw [hstep, decode_replicate5, dequePushAll_eq buffer_size (by omega) _ initBuffer hlen]
  intro heq
  have h511 := congrArg (fun l => l[511]?) heq
  simp only [List.getElem?_drop] at h511
  have hl2 : ([calibrate 0, calibrate 0] : List ℚ).length = 2 := rfl
  rw [hl2] at h511
  have hge : initBuffer.length ≤ 2 + 511 := by
    rw [hlen, hcap]
    norm_num
  rw [List.getElem?_append_right hge] at h511
  rw [hlen, hcap] at h511
  have hidx : (2 + 511 - 512 : ℕ) = 1 := by norm_num
  rw [hidx] at h511
  have hlhs : ([calibrate 0, calibrate 0] : List ℚ)[1]? = some (calibrate 0) := rfl
  rw [hlhs] at h511
  have hrhs : initBuffer[511]? = some 0 := by
    rw [initBuffer, List.getElem?_replicate,
      if_pos (show (511 : ℕ) < buffer_size by rw [hcap]; norm_num)]
  rw [hrhs] at h511
  exact calibrate_zero_ne (Option.some.inj h511)

/-- C9 amended: for every truncated packet (shorter than the expected
20 bytes) the notification callback raises no error (the embedded
function is total), decodes fewer than 12 samples, and pushes those
partially decoded samples into the affected channel's buffer — it does
not discard them — keeping the buffer at capacity and leaving the other
channels untouched; decoding of later notifications is independent of
the truncated one. -/
theorem C9_truncated_amended :
    ∀ (bufs : Fin 4 → List ℚ) (ch : Fin 4) (data : List Byte),
      data.length < 20 →
      (bufs ch).length = buffer_size →
      (decode_eeg_packet data).length < 12 ∧
      eeg_callback bufs ch data ch =
        ((bufs ch) ++ decode_eeg_packet data).drop (decode_eeg_packet data).length ∧
      (eeg_callback bufs ch data ch).length = buffer_size ∧
      (∀ c, c ≠ ch → eeg_callback bufs ch data c = bufs c) := by
  intro bufs ch data hshort hlen
  have hcap : buffer_size = 512 := by norm_num [buffer_size, WINDOW_SIZE, SFREQ]
  have hstep : eeg_callback bufs ch data ch =
      dequePushAll buffer_size (bufs ch) (decode_eeg_packet data) := by
    simp [eeg_callback]
  have hpush := dequePushAll_eq buffer_size (by omega) (decode_eeg_packet data)
    (bufs ch) hlen
  refine ⟨decode_short data hshort, ?_, ?_, ?_⟩
  · rw [hstep, hpush]
  · rw [hstep, hpush]
    simp
    omega
  · intro c hc
    simp [eeg_callback, hc]

/-- Witness for C9's amended property at the concrete truncated
packet. -/
theorem C9_witness :
    (decode_eeg_packet (List.replicate 5 0)).length < 12 ∧
    eeg_callback (fun _ => initBuffer) 0 (List.replicate 5 0) 0 =
      (initBuffer ++ decode_eeg_packet (List.replicate 5 0)).drop
        (decode_eeg_packet (List.replicate 5 0)).length ∧
    (eeg_callback (fun _ => initBuffer) 0 (List.replicate 5 0) 0).length = buffer_size ∧
    (∀ c, c ≠ (0 : Fin 4) →
      eeg_callback (fun _ => initBuffer) 0 (List.replicate 5 0) c = initBuffer) :=
  C9_truncated_amended (fun _ => initBuffer) 0 (List.replicate 5 0)
    (by rw [List.length_replicate]; norm_num)
    (by rw [initBuffer, List.length_replicate])

theorem chPowers_congr (bufs : Fin 4 → ℕ → ℝ) (lo hi : ℚ)
    (hbins : 0 < (bandBins buffer_size lo hi).card) :
    (List.finRange 4).filterMap (fun ch =>
      if peakAbs (bufs ch) < 0.1 then none
      else if 0 < (bandBins buffer_size lo hi).card then
        some (channelBandPower buffer_size (bufs ch) lo hi)
      else none) =
    (List.finRange 4).filterMap (fun ch =>
      if 0.1 ≤ peakAbs (bufs ch) then
        some (channelBandPower buffer_size (bufs ch) lo hi)
      else none) := by
  apply List.filterMap_congr
  intro ch _
  by_cases hpeak : peakAbs (bufs ch) < 0.1
  · rw [if_pos hpeak, if_neg (not_le.mpr hpeak)]
  · rw [if_neg hpeak, if_pos hbins, if_pos (not_lt.mp hpeak)]

theorem bandBins_nonempty_all :
    ∀ band ∈ BANDS, 0 < (bandBins buffer_size band.2.1 band.2.2).card := by
  have hbs : buffer_size = 512 := by norm_num [buffer_size, WINDOW_SIZE, SFREQ]
  intro band hband
  rw [hbs]
  simp only [BANDS, List.mem_cons, List.not_mem_nil, or_false] at hband
  rcases hband with h | h | h | h | h
  · subst h
    exact Finset.card_pos.mpr ⟨8, Finset.mem_filter.mpr
      ⟨Finset.mem_range.mpr (by norm_num), by norm_num [fftfreq, SFREQ]⟩⟩
  · subst h
    exact Finset.card_pos.mpr ⟨16, Finset.mem_filter.mpr
      ⟨Finset.mem_range.mpr (by norm_num), by norm_num [fftfreq, SFREQ]⟩⟩
  · subst h
    exact Finset.card_pos.mpr ⟨24, Finset.mem_filter.mpr
      ⟨Finset.mem_range.mpr (by norm_num), by norm_num [fftfreq, SFREQ]⟩⟩
  · subst h
    exact Finset.card_pos.mpr ⟨32, Finset.mem_filter.mpr
      ⟨Finset.mem_range.mpr (by norm_num), by norm_num [fftfreq, SFREQ]⟩⟩
  · subst h
    exact Finset.card_pos.mpr ⟨50, Finset.mem_filter.mpr
      ⟨Finset.mem_range.mpr (by norm_num), by norm_num [fftfreq, SFREQ]⟩⟩

/-- C2: for every state of the four channel buffers,
`calculate_band_powers` equals the reference definition written from
the specification's words (noise-floor exclusion at peak below 0.1,
mean removal, Hamming window, one-sided magnitude spectrum normalized
by `2/N`, bins with `low ≤ f < high`, per-channel mean magnitude, band
mean over contributing channels, bands with no contributor omitted);
and when all four channels are near-zero the result is empty. -/
theorem C2_band_powers_refinement :
    (∀ bufs : Fin 4 → ℕ → ℝ, calculate_band_powers bufs = bandPowersSpec bufs) ∧
    calculate_band_powers (fun _ _ => 0) = [] := by
  constructor
  · intro bufs
    rw [calculate_band_powers, bandPowersSpec]
    apply List.filterMap_congr
    intro band hband
    have hbins := bandBins_nonempty_all band hband
    simp only [chPowers_congr bufs band.2.1 band.2.2 hbins]
  · rw [calculate_band_powers]
    have hpeak : peakAbs (fun _ => (0 : ℝ)) = 0 := by
      rw [peakAbs]
      simp [Finset.sup'_const]
    have hlt : peakAbs (fun _ => (0 : ℝ)) < 0.1 := by
      rw [hpeak]
      norm_num
    simp [hlt]

end MuseHeadless
